import Mathlib

set_option maxRecDepth 10000

/-!
Verification development for the transcript normalization engine of the
audio-classifier repository (`src/transcript_processor.py`).

Strings are modelled as `List Char`.  Python's loops are modelled as
fuel-based structural recursions; in every case the fuel supplied by the
wrapper is provably sufficient, so the fuel-exhaustion branches are
unreachable for the actual calls.  Machine floats appear only in
`detect_language` (`chinese_chars / total_chars > 0.3`); the comparison is
modelled exactly over the integers as `10 * chinese > 3 * total`.
-/

namespace TranscriptProc

abbrev Str := List Char

/-- ASCII whitespace, the characters Python's `str.split()` / `\s` split on
(the model restricts to the ASCII subset of Unicode whitespace). -/
def isWS (c : Char) : Bool :=
  c = ' ' || c = '\t' || c = '\n' || c = '\r' || c = '\x0b' || c = '\x0c'

/-- Sentence terminators, the character class `[.!?]` of the source. -/
def isTerm (c : Char) : Bool := c = '.' || c = '!' || c = '?'

/-- Worker for `pySplit`: `cur` is the reversed current token. -/
def splitGo : Str → Str → List Str
  | [], cur => if cur.isEmpty then [] else [cur.reverse]
  | c :: cs, cur =>
    if isWS c then
      if cur.isEmpty then splitGo cs [] else cur.reverse :: splitGo cs []
    else splitGo cs (c :: cur)

/-- Python `text.split()`: split on whitespace runs, dropping empty tokens. -/
def pySplit (s : Str) : List Str := splitGo s []

/-- Python `sep.join(parts)`. -/
def joinSep (sep : Str) : List Str → Str
  | [] => []
  | [x] => x
  | x :: y :: xs => x ++ sep ++ joinSep sep (y :: xs)

/-- Python `s.strip()` (ASCII whitespace model). -/
def pyStrip (s : Str) : Str := ((s.dropWhile isWS).reverse.dropWhile isWS).reverse

/-- Worker for `reSplitTerm`: `inRun` records whether the previous character
was a sentence terminator, `cur` is the reversed current piece. -/
def reSplitGo : Bool → Str → Str → List Str
  | _, [], cur => [cur.reverse]
  | inRun, c :: cs, cur =>
    if isTerm c then
      if inRun then reSplitGo true cs cur
      else cur.reverse :: reSplitGo true cs []
    else reSplitGo false cs (c :: cur)

/-- `re.split(r'[.!?]+', s)`: maximal terminator runs separate the pieces;
empty pieces at the ends (and the whole string when it has no terminator)
are kept, exactly as `re.split` does. -/
def reSplitTerm (s : Str) : List Str := reSplitGo false s []

/-- One iteration of the duplicate-sentence loop of
`remove_repetitive_phrases` (lines 147-150 of the source). -/
def dedupStep (acc : List Str) (s : Str) : List Str :=
  let s' := pyStrip s
  if s' ≠ [] ∧ s' ∉ acc then acc ++ [s'] else acc

/-- The `unique_sentences` list built by the source. -/
def uniqueSentences (sentences : List Str) : List Str := sentences.foldl dedupStep []

/-- Lines 142-152 of the source: split on `[.!?]+`, keep the first
occurrence of each distinct stripped sentence, rejoin with `'. '` and a
trailing `'.'`; empty list of sentences yields the empty string. -/
def dedupSentencesPass (t : Str) : Str :=
  let uniq := uniqueSentences (reSplitTerm t)
  if uniq.isEmpty then [] else joinSep ['.', ' '] uniq ++ ['.']

/-- `' '.join(words[pos:pos+len])`, the phrase string the source compares. -/
def joinSlice (ws : List Str) (pos len : Nat) : Str :=
  joinSep [' '] ((ws.drop pos).take len)

/-- The `while` loop counting consecutive repetitions of the phrase
`words[i:i+len]` (lines 121-126).  `pos` advances by `len ≥ 1` each
iteration, so fuel `ws.length + 1` is sufficient. -/
def countRepsGo (ws : List Str) (i len : Nat) : Nat → Nat → Nat
  | 0, _ => 0
  | fuel + 1, pos =>
    if pos + len ≤ ws.length ∧ joinSlice ws pos len = joinSlice ws i len then
      countRepsGo ws i len fuel (pos + len) + 1
    else 0

def countReps (ws : List Str) (i len : Nat) : Nat := countRepsGo ws i len (ws.length + 1) i

/-- The `for phrase_len in range(...)` loop (lines 114-131), carried out for
`fuel` iterations starting at phrase length `L`; `best` is the pair
`(best_phrase_length, best_repetitions)`.  The first test models the
loop-body `break` (which in fact never fires for the ranges used). -/
def bestGo (ws : List Str) (i : Nat) : Nat → Nat → Nat × Nat → Nat × Nat
  | 0, _, best => best
  | fuel + 1, L, best =>
    if ws.length ≤ i + L then best
    else
      let reps := countReps ws i L
      bestGo ws i fuel (L + 1) (if 1 < reps ∧ best.1 < L then (L, reps) else best)

/-- The longest repeating pattern at cursor `i`:
`range(m, min(15, len(words) - i))` has `min 15 (n - i) - m` iterations. -/
def bestPattern (m : Nat) (ws : List Str) (i : Nat) : Nat × Nat :=
  bestGo ws i (min 15 (ws.length - i) - m) m (0, 0)

/-- The word-level scan of `remove_repetitive_phrases` (lines 104-141),
from cursor `i`.  The cursor advances by at least 1 each iteration, so fuel
`ws.length + 1` is sufficient. -/
def collapseGo (m : Nat) (ws : List Str) : Nat → Nat → List Str
  | 0, _ => []
  | fuel + 1, i =>
    if h : i < ws.length then
      if ws.length ≤ i + m then ws.drop i
      else
        let best := bestPattern m ws i
        if 0 < best.1 ∧ 1 < best.2 then
          (ws.drop i).take best.1 ++ collapseGo m ws fuel (i + best.1 * best.2)
        else
          ws.get ⟨i, h⟩ :: collapseGo m ws fuel (i + 1)
    else []

/-- The word-level pass of `remove_repetitive_phrases`: the `result` list
of the source after the `while` loop. -/
def collapseWords (m : Nat) (ws : List Str) : List Str :=
  collapseGo m ws (ws.length + 1) 0

/-- `remove_repetitive_phrases(text, min_phrase_length=3)` (lines 98-152). -/
def remove_repetitive_phrases (text : Str) (min_phrase_length : Nat := 3) : Str :=
  dedupSentencesPass (joinSep [' '] (collapseWords min_phrase_length (pySplit text)))

/-- Scan for the closing delimiter of a `\[.*?\]`-style match: `.` does not
match a newline, and `.*?` takes the first closer. -/
def findClose (cl : Char) : Str → Option Str
  | [] => none
  | c :: cs => if c = cl then some cs else if c = '\n' then none else findClose cl cs

/-- `re.sub(r'\[.*?\]', '', text)` (and the parenthesis variant): delete
every delimiter-enclosed single-line span, scanning left to right. -/
def removeDelimGo (op cl : Char) : Nat → Str → Str
  | 0, s => s
  | _ + 1, [] => []
  | fuel + 1, c :: cs =>
    if c = op then
      match findClose cl cs with
      | some rest => removeDelimGo op cl fuel rest
      | none => c :: removeDelimGo op cl fuel cs
    else c :: removeDelimGo op cl fuel cs

def removeDelim (op cl : Char) (s : Str) : Str := removeDelimGo op cl s.length s

/-- ASCII model of the regex word character class `\w`. -/
def isWordChar (c : Char) : Bool := c.isAlpha || c.isDigit || c = '_'

/-- Case-insensitive literal match: on success returns the rest of the
input after the literal. -/
def matchLower : Str → Str → Option Str
  | [], s => some s
  | _ :: _, [] => none
  | p :: ps, c :: cs => if c.toLower = p then matchLower ps cs else none

/-- The cue-word vocabulary of line 23, in the order of the alternation. -/
def cueWords : List Str :=
  ["music".toList, "applause".toList, "laughter".toList, "cheering".toList,
   "background noise".toList]

/-- Try each alternative in order; a match must be followed by a word
boundary (end of input or a non-word character). -/
def tryCueList : List Str → Str → Option Str
  | [], _ => none
  | w :: rest, s =>
    match matchLower w s with
    | some r =>
      match r.head? with
      | none => some r
      | some c => if isWordChar c then tryCueList rest s else some r
    | none => tryCueList rest s

/-- `re.sub(r'\b(music|...)\b', '', text, flags=re.IGNORECASE)`:
`prevWord` records whether the previous character of the original text is a
word character (the leading `\b`); every cue word starts and ends with a
word character. -/
def removeCuesGo : Nat → Bool → Str → Str
  | 0, _, s => s
  | _ + 1, _, [] => []
  | fuel + 1, prevWord, c :: cs =>
    if prevWord then c :: removeCuesGo fuel (isWordChar c) cs
    else
      match tryCueList cueWords (c :: cs) with
      | some rest => removeCuesGo fuel true rest
      | none => c :: removeCuesGo fuel (isWordChar c) cs

def removeCueWords (s : Str) : Str := removeCuesGo s.length false s

/-- Replace each whitespace run by a single space (`re.sub(r'\s+', ' ', s)`). -/
def collapseSpacesGo : Bool → Str → Str
  | _, [] => []
  | prevWS, c :: cs =>
    if isWS c then
      if prevWS then collapseSpacesGo true cs else ' ' :: collapseSpacesGo true cs
    else c :: collapseSpacesGo false cs

/-- `re.sub(r'\s+', ' ', s).strip()`, the whitespace normalization used at
lines 26 and 157. -/
def normalizeWS (s : Str) : Str := pyStrip (collapseSpacesGo false s)

/-- `remove_audio_cues(text)` (lines 16-28). -/
def remove_audio_cues (text : Str) : Str :=
  normalizeWS (removeCueWords (removeDelim '(' ')' (removeDelim '[' ']' text)))

/-- `clean_plain_text(content)` (lines 88-96). -/
def clean_plain_text (content : Str) : Str :=
  remove_repetitive_phrases (remove_audio_cues content)

inductive Lang where
  | english : Lang
  | chinese : Lang
deriving DecidableEq, Repr

/-- CJK Unified Ideographs range `[一-鿿]`. -/
def isCJK (c : Char) : Bool := 0x4e00 ≤ c.toNat && c.toNat ≤ 0x9fff

/-- `len(re.findall(r'[一-鿿]', text))`. -/
def chineseCharCount (text : Str) : Nat := text.countP isCJK

/-- `len(text.replace(' ', ''))`: only the plain space is removed. -/
def nonSpaceCount (text : Str) : Nat := (text.filter (fun c => c ≠ ' ')).length

/-- `detect_language(text)` (lines 30-41); `chinese / total > 0.3` is
modelled exactly as `10 * chinese > 3 * total`. -/
def detect_language (text : Str) : Lang :=
  if 0 < nonSpaceCount text ∧ 3 * nonSpaceCount text < 10 * chineseCharCount text then
    Lang.chinese
  else Lang.english

/-- `for j in range(0, len(l), k): l[j:j+k]`: consecutive slices of width
`k`.  Each step drops `k ≥ 1` elements, so fuel `l.length` is sufficient
(the source raises on `k = 0`; theorems carry `0 < k`). -/
def sliceGo (k : Nat) : Nat → List α → List (List α)
  | _, [] => []
  | 0, _ => []
  | fuel + 1, l => l.take k :: sliceGo k fuel (l.drop k)

def sliceEvery (l : List α) (k : Nat) : List (List α) := sliceGo k l.length l

/-- The `chunks` list built by `format_text_chinese` (lines 154-178), with
each chunk kept as its list of formatted lines: spans of
`words_per_chunk * 6` characters, each sliced into `chars_per_line`-character
lines that are stripped and dropped when blank; chunks with no lines are
dropped. -/
def format_text_chinese_chunks (text : Str) (words_per_chunk chars_per_line : Nat) :
    List (List Str) :=
  ((sliceEvery (normalizeWS text) (words_per_chunk * 6)).map fun span =>
    (sliceEvery span chars_per_line).filterMap fun lt =>
      let s := pyStrip lt
      if s.isEmpty then none else some s).filter fun ls => !ls.isEmpty

/-- `format_text_chinese(text, words_per_chunk=100, chars_per_line=50)`. -/
def format_text_chinese (text : Str) (words_per_chunk : Nat := 100)
    (chars_per_line : Nat := 50) : Str :=
  joinSep ['\n', '\n']
    ((format_text_chinese_chunks text words_per_chunk chars_per_line).map (joinSep ['\n']))

/-- The chunk structure built by `format_text_english` (lines 180-197):
chunks of `words_per_chunk` words, each chunk cut into lines of
`words_per_line` words. -/
def format_text_english_chunks (text : Str) (words_per_chunk words_per_line : Nat) :
    List (List (List Str)) :=
  (sliceEvery (pySplit text) words_per_chunk).map fun cw => sliceEvery cw words_per_line

/-- `format_text_english(text, words_per_chunk=100, words_per_line=15)`. -/
def format_text_english (text : Str) (words_per_chunk : Nat := 100)
    (words_per_line : Nat := 15) : Str :=
  joinSep ['\n', '\n']
    ((format_text_english_chunks text words_per_chunk words_per_line).map fun lines =>
      joinSep ['\n'] (lines.map (joinSep [' '])))

/-- `format_text(text, words_per_chunk=100, words_per_line=15)` (lines
199-206): dispatch on the detected language; the Chinese branch passes the
fixed arguments `500` and `50`. -/
def format_text (text : Str) (words_per_chunk : Nat := 100) (words_per_line : Nat := 15) :
    Str :=
  match detect_language text with
  | Lang.chinese => format_text_chinese text 500 50
  | Lang.english => format_text_english text words_per_chunk words_per_line

/-- A word sequence contains a phrase of 3 to 14 words immediately repeated
back-to-back. -/
def hasStutter (ws : List Str) : Bool :=
  (List.range ws.length).any fun i =>
    (List.range' 3 12).any fun L =>
      decide (i + 2 * L ≤ ws.length) &&
        decide ((ws.drop i).take L = (ws.drop (i + L)).take L)

/-- Every whitespace character of the string is a plain space. -/
def onlySpaceWS (l : Str) : Prop := ∀ c ∈ l, isWS c = true → c = ' '

/-- No two adjacent characters of the string are both spaces. -/
def noTwoSpaces (l : Str) : Prop := l.Chain' fun a b => ¬(a = ' ' ∧ b = ' ')

/-! ### Tokens produced by `pySplit` are nonempty and whitespace-free -/

theorem splitGo_tokens : ∀ (s cur : Str), (∀ c ∈ cur, isWS c = false) →
    ∀ t ∈ splitGo s cur, t ≠ [] ∧ ∀ c ∈ t, isWS c = false := by
  intro s
  induction s with
  | nil =>
    intro cur hcur t ht
    by_cases h : cur.isEmpty
    · simp [splitGo, h] at ht
    · rw [splitGo, if_neg h, List.mem_singleton] at ht
      subst ht
      refine ⟨by simpa [List.isEmpty_iff] using h, ?_⟩
      intro c hc
      exact hcur c (List.mem_reverse.mp hc)
  | cons a s ih =>
    intro cur hcur t ht
    by_cases ha : isWS a
    · by_cases h : cur.isEmpty
      · rw [splitGo, if_pos ha, if_pos h] at ht
        exact ih [] (by simp) t ht
      · rw [splitGo, if_pos ha, if_neg h] at ht
        rcases List.mem_cons.mp ht with rfl | ht
        · refine ⟨by simpa [List.isEmpty_iff] using h, ?_⟩
          intro c hc
          exact hcur c (List.mem_reverse.mp hc)
        · exact ih [] (by simp) t ht
    · rw [splitGo, if_neg ha] at ht
      refine ih (a :: cur) ?_ t ht
      intro c hc
      rcases List.mem_cons.mp hc with rfl | hc
      · simpa using ha
      · exact hcur c hc

theorem pySplit_tokens (s : Str) : ∀ t ∈ pySplit s, t ≠ [] ∧ ∀ c ∈ t, isWS c = false :=
  splitGo_tokens s [] (by simp)

/-! ### Splitting across whitespace separators -/

theorem splitGo_append_ws {w : Char} (hw : isWS w = true) :
    ∀ (a b cur : Str), splitGo (a ++ w :: b) cur = splitGo a cur ++ splitGo b [] := by
  intro a
  induction a with
  | nil =>
    intro b cur
    by_cases h : cur.isEmpty <;>
      simp [splitGo, hw, h]
  | cons x xs ih =>
    intro b cur
    by_cases hx : isWS x
    · by_cases h : cur.isEmpty <;>
        simp [splitGo, hx, h, ih]
    · simp [splitGo, hx, ih]

theorem pySplit_append_ws {w : Char} (hw : isWS w = true) (a b : Str) :
    pySplit (a ++ w :: b) = pySplit a ++ pySplit b :=
  splitGo_append_ws hw a b []

theorem pySplit_append_sep : ∀ (sep : Str), sep ≠ [] → (∀ c ∈ sep, isWS c = true) →
    ∀ a b : Str, pySplit (a ++ sep ++ b) = pySplit a ++ pySplit b := by
  intro sep
  induction sep with
  | nil => intro h; exact absurd rfl h
  | cons w rest ih =>
    intro _ hws a b
    have hw : isWS w = true := hws w (by simp)
    rcases rest with - | ⟨r, rs⟩
    · simpa using pySplit_append_ws hw a b
    · have h1 : a ++ (w :: r :: rs) ++ b = a ++ w :: ((r :: rs) ++ b) := by simp
      rw [h1, pySplit_append_ws hw a ((r :: rs) ++ b)]
      have h2 : (r :: rs) ++ b = [] ++ (r :: rs) ++ b := rfl
      rw [h2, ih (by simp) (fun c hc => hws c (by simp [hc])) [] b]
      simp [pySplit, splitGo]

theorem splitGo_all_nonWS : ∀ (t cur : Str), (∀ c ∈ t, isWS c = false) →
    splitGo t cur = if (cur.reverse ++ t).isEmpty then [] else [cur.reverse ++ t] := by
  intro t
  induction t with
  | nil => intro cur _; simp [splitGo, List.isEmpty_iff]
  | cons c cs ih =>
    intro cur h
    have hc : isWS c = false := h c (by simp)
    rw [splitGo, if_neg (by simp [hc])]
    rw [ih (c :: cur) (fun d hd => h d (List.mem_cons_of_mem c hd))]
    simp

theorem pySplit_no_ws (t : Str) (h : ∀ c ∈ t, isWS c = false) (hne : t ≠ []) :
    pySplit t = [t] := by
  unfold pySplit
  rw [splitGo_all_nonWS t [] h]
  simp [List.isEmpty_iff, hne]

theorem joinSep_cons₂ (sep : Str) (x y : Str) (xs : List Str) :
    joinSep sep (x :: y :: xs) = x ++ sep ++ joinSep sep (y :: xs) := rfl

theorem pySplit_joinSep (sep : Str) (hne : sep ≠ []) (hws : ∀ c ∈ sep, isWS c = true) :
    ∀ ss : List Str, pySplit (joinSep sep ss) = (ss.map pySplit).flatten := by
  intro ss
  induction ss with
  | nil => simp [joinSep, pySplit, splitGo]
  | cons x xs ih =>
    rcases xs with - | ⟨y, ys⟩
    · simp [joinSep]
    · rw [joinSep_cons₂, pySplit_append_sep sep hne hws x (joinSep sep (y :: ys)), ih]
      simp

theorem pySplit_joinSep_tokens (sep : Str) (hne : sep ≠ []) (hws : ∀ c ∈ sep, isWS c = true)
    (ts : List Str) (h : ∀ t ∈ ts, t ≠ [] ∧ ∀ c ∈ t, isWS c = false) :
    pySplit (joinSep sep ts) = ts := by
  rw [pySplit_joinSep sep hne hws ts]
  induction ts with
  | nil => simp
  | cons t ts ih =>
    have ht := h t (by simp)
    rw [List.map_cons, List.flatten_cons, pySplit_no_ws t ht.2 ht.1,
      ih (fun u hu => h u (List.mem_cons_of_mem t hu))]
    simp

/-! ### Slicing lemmas -/

theorem sliceGo_succ_cons {α : Type} (k fuel : Nat) (x : α) (xs : List α) :
    sliceGo k (fuel + 1) (x :: xs) = (x :: xs).take k :: sliceGo k fuel ((x :: xs).drop k) :=
  rfl

theorem sliceGo_join {α : Type} (k : Nat) (hk : 0 < k) :
    ∀ (fuel : Nat) (l : List α), l.length ≤ fuel → (sliceGo k fuel l).flatten = l := by
  intro fuel
  induction fuel with
  | zero =>
    intro l hl
    rw [List.length_eq_zero.mp (Nat.le_zero.mp hl)]
    simp [sliceGo]
  | succ fuel ih =>
    intro l hl
    rcases l with - | ⟨x, xs⟩
    · simp [sliceGo]
    · rw [sliceGo_succ_cons, List.flatten_cons, ih ((x :: xs).drop k) (by simp only [List.length_drop, List.length_cons] at hl ⊢; omega),
        List.take_append_drop]

theorem sliceEvery_join {α : Type} (l : List α) (k : Nat) (hk : 0 < k) :
    (sliceEvery l k).flatten = l :=
  sliceGo_join k hk l.length l le_rfl

theorem sliceGo_mem_length {α : Type} (k : Nat) :
    ∀ (fuel : Nat) (l : List α) (c : List α), c ∈ sliceGo k fuel l → c.length ≤ k := by
  intro fuel
  induction fuel with
  | zero =>
    intro l c hc
    rcases l with - | ⟨x, xs⟩ <;> simp [sliceGo] at hc
  | succ fuel ih =>
    intro l c hc
    rcases l with - | ⟨x, xs⟩
    · simp [sliceGo] at hc
    · rw [sliceGo_succ_cons] at hc
      rcases List.mem_cons.mp hc with rfl | hc
      · simp only [List.length_take]
        exact Nat.min_le_left k (x :: xs).length
      · exact ih _ c hc

theorem sliceEvery_mem_length {α : Type} (l : List α) (k : Nat) (c : List α)
    (hc : c ∈ sliceEvery l k) : c.length ≤ k :=
  sliceGo_mem_length k l.length l c hc

theorem sliceGo_mem_subset {α : Type} (k : Nat) :
    ∀ (fuel : Nat) (l : List α) (c : List α), c ∈ sliceGo k fuel l → ∀ x ∈ c, x ∈ l := by
  intro fuel
  induction fuel with
  | zero =>
    intro l c hc
    rcases l with - | ⟨y, ys⟩ <;> simp [sliceGo] at hc
  | succ fuel ih =>
    intro l c hc x hx
    rcases l with - | ⟨y, ys⟩
    · simp [sliceGo] at hc
    · rw [sliceGo_succ_cons] at hc
      rcases List.mem_cons.mp hc with rfl | hc
      · exact List.take_subset k (y :: ys) hx
      · exact List.drop_subset k (y :: ys) (ih _ c hc x hx)

theorem sliceEvery_mem_subset {α : Type} (l : List α) (k : Nat) (c : List α)
    (hc : c ∈ sliceEvery l k) : ∀ x ∈ c, x ∈ l :=
  sliceGo_mem_subset k l.length l c hc

/-! ### Word-level re-flow of the English formatter -/

theorem pySplit_format_text_english (text : Str) (wpc wpl : Nat)
    (hwpc : 0 < wpc) (hwpl : 0 < wpl) :
    pySplit (format_text_english text wpc wpl) = pySplit text := by
  unfold format_text_english format_text_english_chunks
  have htok := pySplit_tokens text
  rw [pySplit_joinSep ['\n', '\n'] (by simp) (by decide), List.map_map]
  have hmap : ∀ cw ∈ sliceEvery (pySplit text) wpc,
      (pySplit ∘ fun lines => joinSep ['\n'] (List.map (joinSep [' ']) lines))
          (sliceEvery cw wpl) = cw := by
    intro cw hcw
    simp only [Function.comp_apply]
    rw [pySplit_joinSep ['\n'] (by simp) (by decide), List.map_map]
    have hline : ∀ line ∈ sliceEvery cw wpl,
        (pySplit ∘ joinSep [' ']) line = id line := by
      intro line hline
      simp only [Function.comp_apply, id]
      refine pySplit_joinSep_tokens [' '] (by simp) (by decide) line ?_
      intro t ht
      exact htok t (sliceEvery_mem_subset (pySplit text) wpc cw hcw t
        (sliceEvery_mem_subset cw wpl line hline t ht))
    rw [List.map_congr_left hline, List.map_id, sliceEvery_join cw wpl hwpl]
  have h2 : List.map (pySplit ∘ fun lines => joinSep ['\n'] (List.map (joinSep [' ']) lines))
      (List.map (fun cw => sliceEvery cw wpl) (sliceEvery (pySplit text) wpc)) =
      List.map (fun cw => cw) (sliceEvery (pySplit text) wpc) := by
    rw [List.map_map]
    exact List.map_congr_left fun cw hcw => hmap cw hcw
  rw [List.map_map] at h2 ⊢
  rw [h2, List.map_id', sliceEvery_join (pySplit text) wpc hwpc]

/-! ### The word-level collapse is the identity on stutter-free sequences -/

theorem countRepsGo_succ (ws : List Str) (i len fuel pos : Nat) :
    countRepsGo ws i len (fuel + 1) pos =
      if pos + len ≤ ws.length ∧ joinSlice ws pos len = joinSlice ws i len then
        countRepsGo ws i len fuel (pos + len) + 1
      else 0 := rfl

theorem bestGo_succ (ws : List Str) (i fuel L : Nat) (best : Nat × Nat) :
    bestGo ws i (fuel + 1) L best =
      if ws.length ≤ i + L then best
      else bestGo ws i fuel (L + 1)
        (if 1 < countReps ws i L ∧ best.1 < L then (L, countReps ws i L) else best) := rfl

theorem collapseGo_succ (m : Nat) (ws : List Str) (fuel i : Nat) :
    collapseGo m ws (fuel + 1) i =
      if h : i < ws.length then
        if ws.length ≤ i + m then ws.drop i
        else
          if 0 < (bestPattern m ws i).1 ∧ 1 < (bestPattern m ws i).2 then
            (ws.drop i).take (bestPattern m ws i).1 ++
              collapseGo m ws fuel (i + (bestPattern m ws i).1 * (bestPattern m ws i).2)
          else ws.get ⟨i, h⟩ :: collapseGo m ws fuel (i + 1)
      else [] := rfl

theorem countReps_le_one (ws : List Str) (i L : Nat) (hL : 3 ≤ L)
    (h : ws.length < i + 2 * L ∨ joinSlice ws (i + L) L ≠ joinSlice ws i L) :
    countReps ws i L ≤ 1 := by
  unfold countReps
  rw [countRepsGo_succ]
  split
  case isTrue hc =>
    obtain ⟨n, hn⟩ : ∃ n, ws.length = n + 1 := ⟨ws.length - 1, by omega⟩
    rw [hn, countRepsGo_succ]
    split
    case isTrue hc2 =>
      exfalso
      rcases h with h | h
      · omega
      · exact h hc2.2
    case isFalse hc2 => simp
  case isFalse hc => simp

theorem bestGo_keep_zero (ws : List Str) (i : Nat)
    (h : ∀ L, 3 ≤ L → L ≤ 14 → countReps ws i L ≤ 1) :
    ∀ fuel L, 3 ≤ L → fuel + L ≤ 15 → bestGo ws i fuel L (0, 0) = (0, 0) := by
  intro fuel
  induction fuel with
  | zero => intro L _ _; rfl
  | succ fuel ih =>
    intro L hL hfuel
    rw [bestGo_succ]
    split
    · rfl
    · have hreps := h L hL (by omega)
      rw [if_neg fun hcon => absurd hcon.1 (by omega)]
      exact ih (L + 1) (by omega) (by omega)

theorem bestPattern_eq_zero (ws : List Str) (i : Nat)
    (h : ∀ L, 3 ≤ L → L ≤ 14 → countReps ws i L ≤ 1) :
    bestPattern 3 ws i = (0, 0) := by
  unfold bestPattern
  exact bestGo_keep_zero ws i h _ 3 le_rfl (by omega)

theorem collapseGo_eq_drop (ws : List Str)
    (hfree : ∀ i L, 3 ≤ L → L ≤ 14 → i + 2 * L ≤ ws.length →
      joinSlice ws i L ≠ joinSlice ws (i + L) L) :
    ∀ fuel i, ws.length - i < fuel → collapseGo 3 ws fuel i = ws.drop i := by
  intro fuel
  induction fuel with
  | zero => intro i h; exact absurd h (Nat.not_lt_zero _)
  | succ fuel ih =>
    intro i hi
    rw [collapseGo_succ]
    split
    case isTrue h =>
      split
      case isTrue h2 => rfl
      case isFalse h2 =>
        have hbp : bestPattern 3 ws i = (0, 0) := by
          refine bestPattern_eq_zero ws i fun L hL hL14 => ?_
          refine countReps_le_one ws i L hL ?_
          by_cases hlen : i + 2 * L ≤ ws.length
          · exact Or.inr fun heq => hfree i L hL hL14 hlen heq.symm
          · exact Or.inl (by omega)
        rw [hbp, if_neg (by simp), ih (i + 1) (by omega),
          List.drop_eq_getElem_cons h]
        rfl
    case isFalse h =>
      rw [List.drop_eq_nil_iff.mpr (by omega)]

theorem collapseWords_eq_self (ws : List Str)
    (hfree : ∀ i L, 3 ≤ L → L ≤ 14 → i + 2 * L ≤ ws.length →
      joinSlice ws i L ≠ joinSlice ws (i + L) L) :
    collapseWords 3 ws = ws := by
  unfold collapseWords
  rw [collapseGo_eq_drop ws hfree (ws.length + 1) 0 (by omega), List.drop_zero]

theorem joinSlice_inj_of_tokens (ws : List Str)
    (htok : ∀ t ∈ ws, t ≠ [] ∧ ∀ c ∈ t, isWS c = false) (i j L : Nat)
    (heq : joinSlice ws i L = joinSlice ws j L) :
    (ws.drop i).take L = (ws.drop j).take L := by
  have h1 : pySplit (joinSlice ws i L) = (ws.drop i).take L :=
    pySplit_joinSep_tokens [' '] (by simp) (by decide) _
      (fun t ht => htok t (List.drop_subset i ws (List.take_subset L (ws.drop i) ht)))
  have h2 : pySplit (joinSlice ws j L) = (ws.drop j).take L :=
    pySplit_joinSep_tokens [' '] (by simp) (by decide) _
      (fun t ht => htok t (List.drop_subset j ws (List.take_subset L (ws.drop j) ht)))
  rw [heq] at h1
  exact h1.symm.trans h2

theorem hasStutter_eq_false (ws : List Str) (hs : hasStutter ws = false) :
    ∀ i L, 3 ≤ L → L ≤ 14 → i + 2 * L ≤ ws.length →
      (ws.drop i).take L ≠ (ws.drop (i + L)).take L := by
  intro i L h3 h14 hlen heq
  unfold hasStutter at hs
  rw [List.any_eq_false] at hs
  have hi : i ∈ List.range ws.length := List.mem_range.mpr (by omega)
  have hall := hs i hi
  rw [Bool.not_eq_true, List.any_eq_false] at hall
  have hL : L ∈ List.range' 3 12 := List.mem_range'.mpr ⟨L - 3, by omega, by omega⟩
  have := hall L hL
  simp [hlen, heq] at this

theorem collapseWords_eq_self_of_not_stutter (ws : List Str)
    (htok : ∀ t ∈ ws, t ≠ [] ∧ ∀ c ∈ t, isWS c = false)
    (hs : hasStutter ws = false) : collapseWords 3 ws = ws := by
  refine collapseWords_eq_self ws fun i L h3 h14 hlen heq => ?_
  exact hasStutter_eq_false ws hs i L h3 h14 hlen (joinSlice_inj_of_tokens ws htok i (i + L) L heq)

/-! ### Pieces produced by the sentence splitter -/

theorem reSplitGo_nil (b : Bool) (cur : Str) : reSplitGo b [] cur = [cur.reverse] := rfl

theorem reSplitGo_cons (b : Bool) (c : Char) (cs cur : Str) :
    reSplitGo b (c :: cs) cur =
      if isTerm c then
        if b then reSplitGo true cs cur else cur.reverse :: reSplitGo true cs []
      else reSplitGo false cs (c :: cur) := rfl

theorem reSplitGo_termFree : ∀ (s : Str) (b : Bool) (cur : Str),
    (∀ c ∈ cur, isTerm c = false) →
    ∀ p ∈ reSplitGo b s cur, ∀ c ∈ p, isTerm c = false := by
  intro s
  induction s with
  | nil =>
    intro b cur hcur p hp
    rw [reSplitGo_nil, List.mem_singleton] at hp
    subst hp
    exact fun c hc => hcur c (List.mem_reverse.mp hc)
  | cons a as ih =>
    intro b cur hcur p hp
    by_cases ha : isTerm a
    · rw [reSplitGo_cons, if_pos ha] at hp
      rcases b with - | -
      · simp only [Bool.false_eq_true, if_neg] at hp
        rcases List.mem_cons.mp hp with rfl | hp
        · exact fun c hc => hcur c (List.mem_reverse.mp hc)
        · exact ih true [] (by simp) p hp
      · rw [if_pos rfl] at hp
        exact ih true cur hcur p hp
    · rw [reSplitGo_cons, if_neg ha] at hp
      refine ih false (a :: cur) ?_ p hp
      intro c hc
      rcases List.mem_cons.mp hc with rfl | hc
      · simpa using ha
      · exact hcur c hc

theorem reSplitTerm_termFree (s : Str) : ∀ p ∈ reSplitTerm s, ∀ c ∈ p, isTerm c = false :=
  reSplitGo_termFree s false [] (by simp)

theorem reSplitGo_subspan : ∀ (s : Str) (b : Bool) (cur : Str), (b = true → cur = []) →
    ∀ p ∈ reSplitGo b s cur,
      (∃ t v, t ++ v = s ∧ p = cur.reverse ++ t) ∨ (∃ u v, u ++ p ++ v = s) := by
  intro s
  induction s with
  | nil =>
    intro b cur _ p hp
    rw [reSplitGo_nil, List.mem_singleton] at hp
    exact Or.inl ⟨[], [], rfl, by simp [hp]⟩
  | cons a as ih =>
    intro b cur hbc p hp
    by_cases ha : isTerm a
    · rw [reSplitGo_cons, if_pos ha] at hp
      rcases b with - | -
      · simp only [Bool.false_eq_true, if_neg] at hp
        rcases List.mem_cons.mp hp with rfl | hp
        · exact Or.inl ⟨[], a :: as, rfl, by simp⟩
        · rcases ih true [] (fun _ => rfl) p hp with ⟨t, v, htv, hpt⟩ | ⟨u, v, huv⟩
          · exact Or.inr ⟨[a], v, by simp [hpt, htv]⟩
          · exact Or.inr ⟨a :: u, v, by simp [huv]⟩
      · rw [if_pos rfl] at hp
        have hcur := hbc rfl
        subst hcur
        rcases ih true [] (fun _ => rfl) p hp with ⟨t, v, htv, hpt⟩ | ⟨u, v, huv⟩
        · exact Or.inr ⟨[a], v, by simp [hpt, htv]⟩
        · exact Or.inr ⟨a :: u, v, by simp [huv]⟩
    · rw [reSplitGo_cons, if_neg ha] at hp
      rcases ih false (a :: cur) (by simp) p hp with ⟨t, v, htv, hpt⟩ | ⟨u, v, huv⟩
      · refine Or.inl ⟨a :: t, v, by simp [htv], ?_⟩
        simp [hpt]
      · exact Or.inr ⟨a :: u, v, by simp [huv]⟩

theorem reSplitTerm_subspan (s : Str) : ∀ p ∈ reSplitTerm s, ∃ u v, u ++ p ++ v = s := by
  intro p hp
  rcases reSplitGo_subspan s false [] (by simp) p hp with ⟨t, v, htv, hpt⟩ | h
  · exact ⟨[], v, by simp [hpt, htv]⟩
  · exact h

/-! ### Properties of `pyStrip` -/

theorem dropWhile_head_not {p : Char → Bool} :
    ∀ (l : Str) (c : Char) (cs : Str), l.dropWhile p = c :: cs → p c = false := by
  intro l
  induction l with
  | nil => intro c cs h; simp [List.dropWhile] at h
  | cons a as ih =>
    intro c cs h
    rw [List.dropWhile_cons] at h
    by_cases ha : p a
    · rw [if_pos ha] at h
      exact ih c cs h
    · rw [if_neg ha] at h
      cases h
      simpa using ha

theorem pyStrip_prefix_dropWhile (s : Str) :
    ∃ w, pyStrip s = pyStrip s ∧ s.dropWhile isWS = pyStrip s ++ w := by
  refine ⟨((s.dropWhile isWS).reverse.takeWhile isWS).reverse, rfl, ?_⟩
  unfold pyStrip
  conv_lhs => rw [← List.reverse_reverse (s.dropWhile isWS),
    ← List.takeWhile_append_dropWhile isWS (s.dropWhile isWS).reverse]
  rw [List.reverse_append]

theorem pyStrip_subspan (s : Str) : ∃ u v, u ++ pyStrip s ++ v = s := by
  obtain ⟨w, -, hw⟩ := pyStrip_prefix_dropWhile s
  refine ⟨s.takeWhile isWS, w, ?_⟩
  rw [List.append_assoc, ← hw, List.takeWhile_append_dropWhile]

theorem mem_of_mem_pyStrip {s : Str} {c : Char} (h : c ∈ pyStrip s) : c ∈ s := by
  obtain ⟨u, v, huv⟩ := pyStrip_subspan s
  rw [← huv]
  simp [h]

theorem pyStrip_head_not (s : Str) (c : Char) (cs : Str) (h : pyStrip s = c :: cs) :
    isWS c = false := by
  obtain ⟨w, -, hw⟩ := pyStrip_prefix_dropWhile s
  rw [h] at hw
  exact dropWhile_head_not s c (cs ++ w) (by simp [hw])

theorem pyStrip_getLast_not (s : Str) (c : Char) (h : (pyStrip s).getLast? = some c) :
    isWS c = false := by
  rw [List.getLast?_eq_head?_reverse] at h
  unfold pyStrip at h
  rw [List.reverse_reverse] at h
  rcases hd : (s.dropWhile isWS).reverse.dropWhile isWS with - | ⟨b, bs⟩
  · rw [hd] at h; simp at h
  · rw [hd] at h
    simp only [List.head?_cons, Option.some.injEq] at h
    subst h
    exact dropWhile_head_not (s.dropWhile isWS).reverse b bs hd

theorem pyStrip_eq_self (s : Str) (h1 : ∀ c cs, s = c :: cs → isWS c = false)
    (h2 : ∀ c, s.getLast? = some c → isWS c = false) : pyStrip s = s := by
  rcases s with - | ⟨a, as⟩
  · rfl
  · have ha : ¬(isWS a = true) := by simp [h1 a as rfl]
    unfold pyStrip
    rw [List.dropWhile_cons, if_neg ha]
    rcases hrev : (a :: as).reverse with - | ⟨b, bs⟩
    · exact absurd hrev (by simp)
    · have hb : ¬(isWS b = true) := by
        have := h2 b (by rw [List.getLast?_eq_head?_reverse, hrev, List.head?_cons])
        simp [this]
      rw [List.dropWhile_cons, if_neg hb, ← hrev, List.reverse_reverse]

theorem pyStrip_idem (s : Str) : pyStrip (pyStrip s) = pyStrip s := by
  refine pyStrip_eq_self (pyStrip s) ?_ ?_
  · exact fun c cs h => pyStrip_head_not s c cs h
  · exact fun c h => pyStrip_getLast_not s c h

theorem pyStrip_cons_space (s : Str) : pyStrip (' ' :: s) = pyStrip s := by
  unfold pyStrip
  rw [List.dropWhile_cons, if_pos (by decide)]

/-! ### The duplicate-sentence filter -/

theorem dedupStep_eq (acc : List Str) (s : Str) :
    dedupStep acc s =
      if pyStrip s ≠ [] ∧ pyStrip s ∉ acc then acc ++ [pyStrip s] else acc := rfl

theorem mem_uniqueSentences_aux : ∀ (xs : List Str) (acc : List Str) (u : Str),
    u ∈ List.foldl dedupStep acc xs →
    u ∈ acc ∨ ∃ x ∈ xs, u = pyStrip x ∧ u ≠ [] := by
  intro xs
  induction xs with
  | nil => intro acc u hu; exact Or.inl hu
  | cons x xs ih =>
    intro acc u hu
    rw [List.foldl_cons] at hu
    rcases ih (dedupStep acc x) u hu with hu' | ⟨y, hy, hys⟩
    · rw [dedupStep_eq] at hu'
      split at hu'
      case isTrue hcond =>
        rcases List.mem_append.mp hu' with h | h
        · exact Or.inl h
        · rw [List.mem_singleton] at h
          exact Or.inr ⟨x, by simp, h, h ▸ hcond.1⟩
      case isFalse hcond => exact Or.inl hu'
    · exact Or.inr ⟨y, List.mem_cons_of_mem x hy, hys⟩

theorem mem_uniqueSentences (xs : List Str) (u : Str) (hu : u ∈ uniqueSentences xs) :
    ∃ x ∈ xs, u = pyStrip x ∧ u ≠ [] := by
  rcases mem_uniqueSentences_aux xs [] u hu with h | h
  · simp at h
  · exact h

theorem uniqueSentences_nodup_aux : ∀ (xs : List Str) (acc : List Str), acc.Nodup →
    (List.foldl dedupStep acc xs).Nodup := by
  intro xs
  induction xs with
  | nil => intro acc h; exact h
  | cons x xs ih =>
    intro acc h
    rw [List.foldl_cons]
    refine ih (dedupStep acc x) ?_
    rw [dedupStep_eq]
    split
    case isTrue hcond => simp [List.nodup_append, h, hcond.2]
    case isFalse hcond => exact h

theorem uniqueSentences_nodup (xs : List Str) : (uniqueSentences xs).Nodup :=
  uniqueSentences_nodup_aux xs [] List.nodup_nil

/-! ### Characters of joined strings -/

theorem mem_joinSep : ∀ (sep : Str) (ss : List Str) (c : Char),
    c ∈ joinSep sep ss → (∃ s ∈ ss, c ∈ s) ∨ c ∈ sep := by
  intro sep ss
  induction ss with
  | nil => intro c hc; simp [joinSep] at hc
  | cons x xs ih =>
    rcases xs with - | ⟨y, ys⟩
    · intro c hc
      exact Or.inl ⟨x, by simp, hc⟩
    · intro c hc
      rw [joinSep_cons₂] at hc
      rcases List.mem_append.mp hc with hc | hc
      · rcases List.mem_append.mp hc with hc | hc
        · exact Or.inl ⟨x, by simp, hc⟩
        · exact Or.inr hc
      · rcases ih c hc with ⟨s, hs, hcs⟩ | hc
        · exact Or.inl ⟨s, List.mem_cons_of_mem x hs, hcs⟩
        · exact Or.inr hc

/-! ### Output shape of the sentence-dedup pass -/

theorem dedupSentencesPass_eq (t : Str) :
    dedupSentencesPass t =
      if (uniqueSentences (reSplitTerm t)).isEmpty then []
      else joinSep ['.', ' '] (uniqueSentences (reSplitTerm t)) ++ ['.'] := rfl

theorem dedupSentencesPass_term_chars (t : Str) (c : Char)
    (hc : c ∈ dedupSentencesPass t) (hterm : isTerm c = true) : c = '.' := by
  rw [dedupSentencesPass_eq] at hc
  split at hc
  case isTrue h => simp at hc
  case isFalse h =>
    rcases List.mem_append.mp hc with hc | hc
    · rcases mem_joinSep ['.', ' '] _ c hc with ⟨u, hu, hcu⟩ | hc
      · obtain ⟨x, hx, hux, -⟩ := mem_uniqueSentences _ u hu
        have := reSplitTerm_termFree t x hx c (by rw [hux] at hcu; exact mem_of_mem_pyStrip hcu)
        rw [this] at hterm
        exact absurd hterm (by simp)
      · rcases List.mem_cons.mp hc with rfl | hc
        · rfl
        · rw [List.mem_singleton] at hc
          subst hc
          exact absurd hterm (by decide)
    · rw [List.mem_singleton] at hc
      exact hc

theorem dedupSentencesPass_getLast (t : Str) :
    dedupSentencesPass t = [] ∨ (dedupSentencesPass t).getLast? = some '.' := by
  rw [dedupSentencesPass_eq]
  split
  · exact Or.inl rfl
  · exact Or.inr (List.getLast?_concat _)

/-! ### Rejoining the words of a canonical single-space string -/

theorem splitGo_nonWS_chars : ∀ (t s cur : Str), (∀ c ∈ t, isWS c = false) →
    splitGo (t ++ s) cur = splitGo s (t.reverse ++ cur) := by
  intro t
  induction t with
  | nil => intro s cur _; simp
  | cons a t ih =>
    intro s cur h
    have ha : ¬(isWS a = true) := by simp [h a (by simp)]
    rw [List.cons_append, splitGo, if_neg ha,
      ih s (a :: cur) (fun c hc => h c (List.mem_cons_of_mem a hc))]
    simp

theorem chain'_of_no_space : ∀ (l : Str), (∀ c ∈ l, c ≠ ' ') → noTwoSpaces l := by
  intro l
  induction l with
  | nil => exact fun _ => List.chain'_nil
  | cons a l ih =>
    intro h
    rcases l with - | ⟨b, t⟩
    · exact List.chain'_singleton a
    · rw [noTwoSpaces, List.chain'_cons]
      exact ⟨fun hab => h a (by simp) hab.1,
        ih (fun c hc => h c (List.mem_cons_of_mem a hc))⟩

theorem noTwoSpaces_of_subspan {l p u v : Str} (h : u ++ p ++ v = l)
    (hl : noTwoSpaces l) : noTwoSpaces p := by
  subst h
  exact (List.chain'_append.mp (List.chain'_append.mp hl).1).2.1

theorem join_pySplit_canon : ∀ (n : Nat) (l : Str), l.length ≤ n →
    onlySpaceWS l → noTwoSpaces l →
    (∀ c cs, l = c :: cs → isWS c = false) →
    (∀ c, l.getLast? = some c → isWS c = false) →
    joinSep [' '] (pySplit l) = l := by
  intro n
  induction n with
  | zero =>
    intro l hl _ _ _ _
    rw [List.length_eq_zero.mp (Nat.le_zero.mp hl)]
    rfl
  | succ n ih =>
    intro l hl hsp hch hhd hlast
    rcases hl0 : l with - | ⟨a, as⟩
    · rfl
    · subst hl0
      have ha : isWS a = false := hhd a as rfl
      have htr := List.takeWhile_append_dropWhile (fun c => !isWS c) (a :: as)
      set t := (a :: as).takeWhile (fun c => !isWS c) with ht
      set r := (a :: as).dropWhile (fun c => !isWS c) with hrdef
      have htchars : ∀ c ∈ t, isWS c = false := by
        intro c hc
        have := List.mem_takeWhile_imp hc
        simpa using this
      have htne : t ≠ [] := by
        rw [ht]
        simp [List.takeWhile_cons, ha]
      rcases hr : r with - | ⟨w, rest⟩
      · rw [hr, List.append_nil] at htr
        rw [← htr, pySplit_no_ws t htchars htne]
        rfl
      · have hwws : isWS w = true := by
          have := dropWhile_head_not (a :: as) w rest (by rw [← hrdef, hr])
          simpa using this
        have hlw : t ++ w :: rest = a :: as := by rw [← hr, htr]
        have hwsp : w = ' ' := hsp w (by rw [← hlw]; simp) hwws
        rcases rest with - | ⟨b, rest2⟩
        · exfalso
          have hgl : (a :: as).getLast? = some w := by
            rw [← hlw]
            exact List.getLast?_concat t
          have := hlast w hgl
          rw [hwws] at this
          exact absurd this (by simp)
        · have hch' : noTwoSpaces (t ++ w :: b :: rest2) := by
            rw [noTwoSpaces, hlw]
            exact hch
          have hchain := (List.chain'_append.mp hch').2.1
          have hpair := (List.chain'_cons.mp hchain).1
          have hchain2 : noTwoSpaces (b :: rest2) := (List.chain'_cons.mp hchain).2
          have hbns : isWS b = false := by
            by_cases hb : isWS b
            · exact absurd ⟨hwsp, hsp b (by rw [← hlw]; simp) hb⟩ hpair
            · simpa using hb
          have hlen2 : (b :: rest2).length ≤ n := by
            have hlen : (a :: as).length = t.length + (w :: b :: rest2).length := by
              rw [← hlw, List.length_append]
            have htpos : 0 < t.length := List.length_pos.mpr htne
            simp only [List.length_cons] at hlen hl ⊢
            omega
          have hglsome : ∃ c0, (b :: rest2).getLast? = some c0 := by
            rcases hgl : (b :: rest2).getLast? with - | c0
            · rw [List.getLast?_eq_none_iff] at hgl
              exact absurd hgl (by simp)
            · exact ⟨c0, rfl⟩
          obtain ⟨c0, hc0⟩ := hglsome
          have hlasttrans : (a :: as).getLast? = (b :: rest2).getLast? := by
            rw [← hlw, List.getLast?_append, List.getLast?_cons_cons, hc0]
            rfl
          have hih := ih (b :: rest2) hlen2
            (fun c hc hws => hsp c (by rw [← hlw]; simp [hc]) hws)
            hchain2
            (fun c cs hcc => by cases hcc; exact hbns)
            (fun c hc => hlast c (by rw [hlasttrans]; exact hc))
          have hsplit : pySplit (a :: as) = t :: pySplit (b :: rest2) := by
            rw [← hlw]
            show splitGo (t ++ w :: b :: rest2) [] = _
            rw [splitGo_nonWS_chars t (w :: b :: rest2) [] htchars, splitGo,
              if_pos hwws, if_neg (by simp [htne]), List.append_nil,
              List.reverse_reverse]
            rfl
          have hne2 : pySplit (b :: rest2) ≠ [] := by
            intro hnil
            rw [hnil] at hih
            exact absurd hih.symm (by simp [joinSep])
          obtain ⟨p, ps, hps⟩ : ∃ p ps, pySplit (b :: rest2) = p :: ps := by
            rcases hx : pySplit (b :: rest2) with - | ⟨p, ps⟩
            · exact absurd hx hne2
            · exact ⟨p, ps, rfl⟩
          rw [hsplit, hps, joinSep_cons₂, ← hps, hih, ← hlw, hwsp]
          simp

/-! ### Re-splitting a canonical sentence join -/

theorem reSplitGo_through_clean : ∀ (p s cur : Str), (∀ c ∈ p, isTerm c = false) →
    reSplitGo false (p ++ s) cur = reSplitGo false s (p.reverse ++ cur) := by
  intro p
  induction p with
  | nil => intro s cur _; simp
  | cons a p ih =>
    intro s cur h
    have ha : ¬(isTerm a = true) := by simp [h a (by simp)]
    rw [List.cons_append, reSplitGo_cons, if_neg ha,
      ih s (a :: cur) (fun c hc => h c (List.mem_cons_of_mem a hc))]
    simp

theorem reSplitTerm_join_dot :
    ∀ (rest : List Str) (u cur : Str), (∀ c ∈ u, isTerm c = false) →
      (∀ v ∈ rest, ∀ c ∈ v, isTerm c = false) →
      reSplitGo false (joinSep ['.', ' '] (u :: rest) ++ ['.']) cur =
        (cur.reverse ++ u) :: rest.map (fun v => ' ' :: v) ++ [[]] := by
  intro rest
  induction rest with
  | nil =>
    intro u cur hu _
    show reSplitGo false (u ++ ['.']) cur = _
    rw [reSplitGo_through_clean u ['.'] cur hu, reSplitGo_cons, if_pos (by decide)]
    simp [reSplitGo_nil]
  | cons v rest ih =>
    intro u cur hu hrest
    have hform : joinSep ['.', ' '] (u :: v :: rest) ++ ['.'] =
        u ++ ('.' :: ' ' :: (joinSep ['.', ' '] (v :: rest) ++ ['.'])) := by
      rw [joinSep_cons₂]
      simp
    rw [hform, reSplitGo_through_clean u _ cur hu, reSplitGo_cons, if_pos (by decide)]
    simp only [Bool.false_eq_true, if_false]
    rw [reSplitGo_cons, if_neg (by decide),
      ih v [' '] (hrest v (by simp)) (fun x hx => hrest x (List.mem_cons_of_mem v hx))]
    simp

/-! ### The dedup filter fixes an already deduplicated sentence list -/

theorem foldl_dedupStep_decorated : ∀ (rest acc : List Str),
    (∀ v ∈ rest, pyStrip v = v ∧ v ≠ [] ∧ v ∉ acc) → rest.Nodup →
    List.foldl dedupStep acc (rest.map (fun v => ' ' :: v)) = acc ++ rest := by
  intro rest
  induction rest with
  | nil => intro acc _ _; simp
  | cons v rest ih =>
    intro acc h hnd
    obtain ⟨hv1, hv2, hv3⟩ := h v (by simp)
    have hrest' : ∀ x ∈ rest, pyStrip x = x ∧ x ≠ [] ∧ x ∉ acc ++ [v] := by
      intro x hx
      obtain ⟨h1, h2, h3⟩ := h x (List.mem_cons_of_mem v hx)
      refine ⟨h1, h2, fun hmem => ?_⟩
      rcases List.mem_append.mp hmem with hmem | hmem
      · exact h3 hmem
      · rw [List.mem_singleton] at hmem
        subst hmem
        exact (List.nodup_cons.mp hnd).1 hx
    have hstep : dedupStep acc (' ' :: v) = acc ++ [v] := by
      rw [dedupStep_eq, pyStrip_cons_space, hv1, if_pos ⟨hv2, hv3⟩]
    rw [List.map_cons, List.foldl_cons, hstep,
      ih (acc ++ [v]) hrest' (List.Nodup.of_cons hnd), List.append_assoc]
    simp

theorem uniqueSentences_decorated (u : Str) (rest : List Str)
    (hu1 : pyStrip u = u) (hu2 : u ≠ [])
    (hrest : ∀ v ∈ rest, pyStrip v = v ∧ v ≠ [])
    (hnd : (u :: rest).Nodup) :
    uniqueSentences ((u :: rest.map (fun v => ' ' :: v)) ++ [[]]) = u :: rest := by
  unfold uniqueSentences
  rw [List.foldl_append]
  have houter : ∀ acc : List Str, List.foldl dedupStep acc [[]] = acc := by
    intro acc
    show dedupStep acc [] = acc
    rw [dedupStep_eq]
    simp [pyStrip]
  rw [houter, List.foldl_cons]
  have h1 : dedupStep [] u = [u] := by
    rw [dedupStep_eq, if_pos ⟨by rw [hu1]; exact hu2, by rw [hu1]; simp⟩, hu1]
    rfl
  have hrest' : ∀ x ∈ rest, pyStrip x = x ∧ x ≠ [] ∧ x ∉ [u] := by
    intro x hx
    obtain ⟨h1', h2'⟩ := hrest x hx
    refine ⟨h1', h2', fun hmem => ?_⟩
    rw [List.mem_singleton] at hmem
    subst hmem
    exact (List.nodup_cons.mp hnd).1 hx
  rw [h1, foldl_dedupStep_decorated rest [u] hrest' (List.Nodup.of_cons hnd)]
  simp

/-! ### Space structure of joined token lists and sentence joins -/

theorem onlySpaceWS_of_subspan {l p u v : Str} (h : u ++ p ++ v = l)
    (hl : onlySpaceWS l) : onlySpaceWS p :=
  fun c hc hws => hl c (by rw [← h]; simp [hc]) hws

theorem onlySpaceWS_joinWords (ts : List Str)
    (h : ∀ t ∈ ts, ∀ c ∈ t, isWS c = false) :
    onlySpaceWS (joinSep [' '] ts) := by
  intro c hc hws
  rcases mem_joinSep [' '] ts c hc with ⟨s, hs, hcs⟩ | hc'
  · rw [h s hs c hcs] at hws
    exact absurd hws (by simp)
  · simpa using hc'

theorem joinSep_head_cons (sep : Str) (y : Str) (ys : List Str) (hy : y ≠ []) :
    (joinSep sep (y :: ys)).head? = y.head? := by
  rcases ys with - | ⟨z, zs⟩
  · rfl
  · rw [joinSep_cons₂, List.head?_append_of_ne_nil _ (by simp [hy]),
      List.head?_append_of_ne_nil _ hy]

theorem joinSep_ne_nil (sep : Str) (y : Str) (ys : List Str) (hy : y ≠ []) :
    joinSep sep (y :: ys) ≠ [] := by
  rcases ys with - | ⟨z, zs⟩
  · exact hy
  · rw [joinSep_cons₂]
    simp [hy]

theorem noTwoSpaces_joinWords : ∀ (ts : List Str),
    (∀ t ∈ ts, t ≠ [] ∧ ∀ c ∈ t, isWS c = false) →
    noTwoSpaces (joinSep [' '] ts) := by
  intro ts
  induction ts with
  | nil => exact fun _ => List.chain'_nil
  | cons t ts ih =>
    intro h
    have hnospace : ∀ c ∈ t, c ≠ ' ' := by
      intro c hc hsp
      have := (h t (by simp)).2 c hc
      rw [hsp] at this
      exact absurd this (by decide)
    rcases ts with - | ⟨y, ys⟩
    · exact chain'_of_no_space t hnospace
    · have hform : joinSep [' '] (t :: y :: ys) = t ++ (' ' :: joinSep [' '] (y :: ys)) := by
        rw [joinSep_cons₂]
        simp
      rw [noTwoSpaces, hform]
      refine List.chain'_append.mpr ⟨chain'_of_no_space t hnospace, ?_, ?_⟩
      · refine List.chain'_cons'.mpr ⟨?_, ih fun v hv => h v (List.mem_cons_of_mem t hv)⟩
        intro b hb
        rw [joinSep_head_cons [' '] y ys (h y (by simp)).1] at hb
        rcases hy : y with - | ⟨c0, cs0⟩
        · exact absurd hy (h y (by simp)).1
        · rw [hy, List.head?_cons] at hb
          have hb0 : c0 = b := by simpa using hb
          have : isWS c0 = false := (h y (by simp)).2 c0 (by rw [hy]; simp)
          intro hcon
          rw [← hb0] at hcon
          rw [hcon.2] at this
          exact absurd this (by decide)
      · intro x hx b hb
        simp only [List.head?_cons, Option.mem_def, Option.some.injEq] at hb
        subst hb
        obtain ⟨hne, hxt⟩ := List.mem_getLast?_eq_getLast hx
        intro hcon
        exact hnospace x (hxt ▸ List.getLast_mem hne) hcon.1

theorem noTwoSpaces_sentence_join : ∀ (us : List Str),
    (∀ u ∈ us, u ≠ [] ∧ noTwoSpaces u ∧ (∀ c cs, u = c :: cs → isWS c = false) ∧
      (∀ c, u.getLast? = some c → isWS c = false)) →
    noTwoSpaces (joinSep ['.', ' '] us ++ ['.']) := by
  intro us
  induction us with
  | nil => intro _; exact List.chain'_singleton '.'
  | cons u us ih =>
    intro h
    obtain ⟨hune, hunts, huhd, hulast⟩ := h u (by simp)
    rcases us with - | ⟨v, vs⟩
    · refine List.chain'_append.mpr ⟨hunts, List.chain'_singleton '.', ?_⟩
      intro x hx b hb
      simp only [List.head?_cons, Option.mem_def, Option.some.injEq] at hb
      subst hb
      exact fun hcon => by simp at hcon
    · have hform : joinSep ['.', ' '] (u :: v :: vs) ++ ['.'] =
          u ++ ('.' :: ' ' :: (joinSep ['.', ' '] (v :: vs) ++ ['.'])) := by
        rw [joinSep_cons₂]
        simp
      rw [noTwoSpaces, hform]
      refine List.chain'_append.mpr ⟨hunts, ?_, ?_⟩
      · refine List.chain'_cons.mpr ⟨by simp, ?_⟩
        refine List.chain'_cons'.mpr
          ⟨?_, ih fun w hw => h w (List.mem_cons_of_mem u hw)⟩
        intro b hb
        obtain ⟨hvne, -, hvhd, -⟩ := h v (by simp)
        rw [List.head?_append_of_ne_nil _ (joinSep_ne_nil ['.', ' '] v vs hvne),
          joinSep_head_cons ['.', ' '] v vs hvne] at hb
        rcases hv : v with - | ⟨c0, cs0⟩
        · exact absurd hv hvne
        · rw [hv, List.head?_cons] at hb
          have hb0 : c0 = b := by simpa using hb
          have hc0 : isWS c0 = false := hvhd c0 cs0 hv
          intro hcon
          rw [← hb0] at hcon
          rw [hcon.2] at hc0
          exact absurd hc0 (by decide)
      · intro x hx b hb
        simp only [List.head?_cons, Option.mem_def, Option.some.injEq] at hb
        subst hb
        exact fun hcon => by simp at hcon

/-! ### The collapse emits only words of its input -/

theorem collapseGo_mem (m : Nat) (ws : List Str) :
    ∀ (fuel i : Nat) (w : Str), w ∈ collapseGo m ws fuel i → w ∈ ws := by
  intro fuel
  induction fuel with
  | zero => intro i w hw; simp [collapseGo] at hw
  | succ fuel ih =>
    intro i w hw
    rw [collapseGo_succ] at hw
    split at hw
    case isTrue h =>
      split at hw
      case isTrue h2 => exact List.drop_subset i ws hw
      case isFalse h2 =>
        split at hw
        case isTrue h3 =>
          rcases List.mem_append.mp hw with hw | hw
          · exact List.drop_subset i ws (List.take_subset _ _ hw)
          · exact ih _ w hw
        case isFalse h3 =>
          rcases List.mem_cons.mp hw with rfl | hw
          · exact List.get_mem ws i h
          · exact ih _ w hw
    case isFalse h => simp at hw

theorem collapseWords_mem (m : Nat) (ws : List Str) (w : Str)
    (hw : w ∈ collapseWords m ws) : w ∈ ws :=
  collapseGo_mem m ws (ws.length + 1) 0 w hw

/-! ### Facts about the sentences produced by the first pass -/

theorem uniq_facts (ts : List Str) (hts : ∀ t ∈ ts, t ≠ [] ∧ ∀ c ∈ t, isWS c = false) :
    ∀ u ∈ uniqueSentences (reSplitTerm (joinSep [' '] ts)),
      u ≠ [] ∧ pyStrip u = u ∧ (∀ c ∈ u, isTerm c = false) ∧
        noTwoSpaces u ∧ (∀ c cs, u = c :: cs → isWS c = false) ∧
        (∀ c, u.getLast? = some c → isWS c = false) ∧ onlySpaceWS u := by
  intro u hu
  obtain ⟨x, hx, hux, hne⟩ := mem_uniqueSentences _ u hu
  obtain ⟨u2, v2, hx2⟩ := reSplitTerm_subspan _ x hx
  obtain ⟨u1, v1, hx1⟩ := pyStrip_subspan x
  have hxsub : (u2 ++ u1) ++ pyStrip x ++ (v1 ++ v2) = joinSep [' '] ts := by
    conv_rhs => rw [← hx2, ← hx1]
    simp
  have hosp : onlySpaceWS (pyStrip x) :=
    onlySpaceWS_of_subspan hxsub (onlySpaceWS_joinWords ts fun t ht => (hts t ht).2)
  have hnts : noTwoSpaces (pyStrip x) :=
    noTwoSpaces_of_subspan hxsub (noTwoSpaces_joinWords ts hts)
  subst hux
  refine ⟨hne, pyStrip_idem x, ?_, hnts, ?_, ?_, hosp⟩
  · exact fun c hc => reSplitTerm_termFree _ x hx c (mem_of_mem_pyStrip hc)
  · exact fun c cs hcc => pyStrip_head_not x c cs hcc
  · exact fun c hc => pyStrip_getLast_not x c hc

/-! ### Conditional idempotence of the full pass -/

theorem rrp_idem_of_stutter_free (s : Str)
    (hfree : hasStutter (pySplit (remove_repetitive_phrases s)) = false) :
    remove_repetitive_phrases (remove_repetitive_phrases s) = remove_repetitive_phrases s := by
  have htok : ∀ t ∈ collapseWords 3 (pySplit s), t ≠ [] ∧ ∀ c ∈ t, isWS c = false :=
    fun t ht => pySplit_tokens s t (collapseWords_mem 3 (pySplit s) t ht)
  have hy : remove_repetitive_phrases s =
      dedupSentencesPass (joinSep [' '] (collapseWords 3 (pySplit s))) := rfl
  rcases hyform : uniqueSentences (reSplitTerm (joinSep [' '] (collapseWords 3 (pySplit s))))
    with - | ⟨u, rest⟩
  · have hynil : remove_repetitive_phrases s = [] := by
      rw [hy, dedupSentencesPass_eq, hyform]
      rfl
    rw [hynil]
    decide
  · have hfacts := uniq_facts (collapseWords 3 (pySplit s)) htok
    obtain ⟨hune, hustr, hutf, hunts, huhd, hulast, huosp⟩ :=
      hfacts u (by rw [hyform]; simp)
    have hnd : (u :: rest).Nodup := by
      rw [← hyform]
      exact uniqueSentences_nodup _
    have hy2 : remove_repetitive_phrases s = joinSep ['.', ' '] (u :: rest) ++ ['.'] := by
      rw [hy, dedupSentencesPass_eq, hyform]
      rfl
    set y := joinSep ['.', ' '] (u :: rest) ++ ['.'] with hydef
    have hhdy : ∀ c cs, y = c :: cs → isWS c = false := by
      intro c cs hcc
      have h1 : y.head? = u.head? := by
        rw [hydef, List.head?_append_of_ne_nil _ (joinSep_ne_nil _ u rest hune),
          joinSep_head_cons _ u rest hune]
      rw [hcc] at h1
      rcases hu0 : u with - | ⟨c0, cs0⟩
      · exact absurd hu0 hune
      · rw [hu0, List.head?_cons] at h1
        have hcc0 : c = c0 := by simpa using h1
        rw [hcc0]
        exact huhd c0 cs0 hu0
    have hlasty : ∀ c, y.getLast? = some c → isWS c = false := by
      intro c hc
      rw [hydef, List.getLast?_concat] at hc
      have : c = '.' := by simpa using hc.symm
      rw [this]
      decide
    have hospy : onlySpaceWS y := by
      intro c hc hws
      rw [hydef] at hc
      rcases List.mem_append.mp hc with hc | hc
      · rcases mem_joinSep _ _ c hc with ⟨w, hw, hcw⟩ | hc'
        · exact (hfacts w (by rw [hyform]; exact hw)).2.2.2.2.2.2 c hcw hws
        · rcases List.mem_cons.mp hc' with rfl | hc'
          · exact absurd hws (by decide)
          · rw [List.mem_singleton] at hc'
            exact hc'
      · rw [List.mem_singleton] at hc
        subst hc
        exact absurd hws (by decide)
    have hntsy : noTwoSpaces y := by
      rw [hydef]
      refine noTwoSpaces_sentence_join (u :: rest) ?_
      intro w hw
      have hwf := hfacts w (by rw [hyform]; exact hw)
      exact ⟨hwf.1, hwf.2.2.2.1, hwf.2.2.2.2.1, hwf.2.2.2.2.2.1⟩
    have hstut : hasStutter (pySplit y) = false := by
      rw [← hy2]
      exact hfree
    have hcw : collapseWords 3 (pySplit y) = pySplit y :=
      collapseWords_eq_self_of_not_stutter (pySplit y) (pySplit_tokens y) hstut
    have hjoin : joinSep [' '] (pySplit y) = y :=
      join_pySplit_canon y.length y le_rfl hospy hntsy hhdy hlasty
    have hrrpy : remove_repetitive_phrases y = dedupSentencesPass y := by
      show dedupSentencesPass (joinSep [' '] (collapseWords 3 (pySplit y))) = _
      rw [hcw, hjoin]
    have hre : reSplitTerm y = (u :: rest.map (fun v => ' ' :: v)) ++ [[]] := by
      show reSplitGo false y [] = _
      rw [hydef, reSplitTerm_join_dot rest u [] hutf
        (fun v hv c hc => (hfacts v (by rw [hyform]; simp [hv])).2.2.1 c hc)]
      simp
    have huniq2 : uniqueSentences (reSplitTerm y) = u :: rest := by
      rw [hre]
      refine uniqueSentences_decorated u rest hustr hune ?_ hnd
      intro v hv
      have hvf := hfacts v (by rw [hyform]; simp [hv])
      exact ⟨hvf.2.1, hvf.1⟩
    have hfinal : dedupSentencesPass y = y := by
      rw [dedupSentencesPass_eq, huniq2, hydef]
      simp
    rw [hy2, hrrpy, hfinal]

/-! ### Size bounds for the character-segmented formatter -/

theorem length_pyStrip_le (s : Str) : (pyStrip s).length ≤ s.length := by
  obtain ⟨u, v, h⟩ := pyStrip_subspan s
  conv_rhs => rw [← h]
  rw [List.length_append, List.length_append]
  omega

theorem filterMapStrip_sum_le : ∀ (slices : List Str),
    ((slices.filterMap fun lt =>
        let s := pyStrip lt
        if s.isEmpty then none else some s).map List.length).sum ≤
      (slices.map List.length).sum := by
  intro slices
  induction slices with
  | nil => simp
  | cons lt slices ih =>
    by_cases h : (pyStrip lt).isEmpty
    · rw [List.filterMap_cons_none (by simp [h]), List.map_cons, List.sum_cons]
      exact le_trans ih (Nat.le_add_left _ _)
    · have hfa : (fun lt =>
          let s := pyStrip lt
          if s.isEmpty then none else some s) lt = some (pyStrip lt) := by simp [h]
      have hout : List.filterMap (fun lt =>
          let s := pyStrip lt
          if s.isEmpty then none else some s) (lt :: slices) =
            pyStrip lt :: List.filterMap (fun lt =>
              let s := pyStrip lt
              if s.isEmpty then none else some s) slices :=
        List.filterMap_cons_some hfa
      rw [hout, List.map_cons, List.sum_cons, List.map_cons, List.sum_cons]
      exact Nat.add_le_add (length_pyStrip_le lt) ih

/-! ### The language detector -/

theorem chineseCharCount_le (text : Str) : chineseCharCount text ≤ nonSpaceCount text := by
  unfold chineseCharCount nonSpaceCount
  rw [← List.countP_eq_length_filter]
  refine List.countP_mono_left ?_
  intro c _ hc
  have h1 : 0x4e00 ≤ c.toNat := by
    unfold isCJK at hc
    simp at hc
    exact hc.1
  simp only [decide_eq_true_eq]
  intro hsp
  rw [hsp] at h1
  exact absurd h1 (by decide)

theorem detect_language_iff (text : Str) :
    detect_language text = Lang.chinese ↔
      3 * nonSpaceCount text < 10 * chineseCharCount text := by
  have hle := chineseCharCount_le text
  unfold detect_language
  split
  case isTrue h => simp [h.2]
  case isFalse h =>
    constructor
    · intro hcontra
      exact absurd hcontra (by simp)
    · intro hcond
      exact absurd ⟨by omega, hcond⟩ h

theorem format_text_dispatch (text : Str) (wpc wpl : Nat) :
    format_text text wpc wpl =
      if detect_language text = Lang.chinese then format_text_chinese text 500 50
      else format_text_english text wpc wpl := by
  unfold format_text
  cases hd : detect_language text
  case english => rw [if_neg (by simp)]
  case chinese => rw [if_pos rfl]

/-! ## Claim theorems -/

/-- C1 counterexample: on the input `"a b c d e f a b c a b c d e f y"` the
output of `remove_repetitive_phrases` is `"a b c d e f a b c d e f y."`,
whose word sequence contains the 6-word phrase `a b c d e f` immediately
repeated back-to-back — so the no-immediate-stutter claim fails on outputs. -/
theorem c1_counterexample :
    hasStutter (pySplit (remove_repetitive_phrases
      "a b c d e f a b c a b c d e f y".toList)) = true := by decide

/-- C1 (amended): the no-stutter guarantee holds only in the no-op
direction — when the input's word sequence contains no phrase of 3 to 14
words immediately repeated back-to-back, the word-level collapse pass of
`remove_repetitive_phrases` returns the word sequence unchanged; the
output of the pass may itself contain such an immediate repeat. -/
theorem c1_amended (text : Str) (h : hasStutter (pySplit text) = false) :
    collapseWords 3 (pySplit text) = pySplit text :=
  collapseWords_eq_self_of_not_stutter (pySplit text) (pySplit_tokens text) h

/-- C1 witness: a concrete stutter-free input passes through unchanged. -/
theorem c1_witness :
    hasStutter (pySplit "hello world today".toList) = false ∧
      collapseWords 3 (pySplit "hello world today".toList) =
        pySplit "hello world today".toList :=
  ⟨by decide, c1_amended "hello world today".toList (by decide)⟩

/-- C2 counterexample: `remove_repetitive_phrases` does not return
`"test test test test test test."` on the six-fold `"test"` input. -/
theorem c2_counterexample :
    remove_repetitive_phrases "test test test test test test".toList ≠
      "test test test test test test.".toList := by decide

/-- C2 (amended): on `"test test test test test test"` the scan finds the
3-word phrase `test test test` immediately repeated twice (phrase length 3
is not below `min_phrase_length = 3`), collapses it to one copy, and
returns `"test test test."`. -/
theorem c2_amended :
    remove_repetitive_phrases "test test test test test test".toList =
      "test test test.".toList := by decide

/-- C3 counterexample: the 6-word sequence `a b c a b c` has fewer than
`2·min_phrase_length + 1 = 7` words, yet the phrase-collapse step fires
and the word-level pass does not emit it unchanged. -/
theorem c3_counterexample :
    (["a", "b", "c", "a", "b", "c"].map String.toList).length < 2 * 3 + 1 ∧
      collapseWords 3 (["a", "b", "c", "a", "b", "c"].map String.toList) ≠
        ["a", "b", "c", "a", "b", "c"].map String.toList := by decide

/-- C3 (amended): the correct threshold is `2·min_phrase_length`: every
word sequence with fewer than 6 words (for `min_phrase_length = 3`) passes
through the word-level pass of `remove_repetitive_phrases` unmodified. -/
theorem c3_amended (ws : List Str) (h : ws.length < 2 * 3) :
    collapseWords 3 ws = ws :=
  collapseWords_eq_self ws fun _ _ h3 _ hlen _ => absurd hlen (by omega)

/-- C3 witness: a concrete 5-word sequence passes through unchanged. -/
theorem c3_witness :
    (["u", "v", "u", "v", "u"].map String.toList).length < 2 * 3 ∧
      collapseWords 3 (["u", "v", "u", "v", "u"].map String.toList) =
        ["u", "v", "u", "v", "u"].map String.toList :=
  ⟨by decide, c3_amended (["u", "v", "u", "v", "u"].map String.toList) (by decide)⟩

/-- C4 counterexample: `remove_repetitive_phrases` is not idempotent — on
`"a b c d e f a b c a b c d e f y"` the first pass produces
`"a b c d e f a b c d e f y."` and a second pass collapses the repeat the
first pass created, producing `"a b c d e f y."`. -/
theorem c4_counterexample :
    remove_repetitive_phrases (remove_repetitive_phrases
      "a b c d e f a b c a b c d e f y".toList) ≠
      remove_repetitive_phrases "a b c d e f a b c a b c d e f y".toList := by decide

/-- C4 (amended): the repetition collapse is idempotent on every input
whose output word sequence is free of immediately repeated 3-to-14-word
phrases; it is exactly the stutters stitched together across collapse
boundaries (as in the counterexample) that break idempotence. -/
theorem c4_amended (s : Str)
    (hfree : hasStutter (pySplit (remove_repetitive_phrases s)) = false) :
    remove_repetitive_phrases (remove_repetitive_phrases s) =
      remove_repetitive_phrases s :=
  rrp_idem_of_stutter_free s hfree

/-- C4 witness: a concrete input with stutter-free output is a fixed point
of the second application. -/
theorem c4_witness :
    hasStutter (pySplit (remove_repetitive_phrases "hello world".toList)) = false ∧
      remove_repetitive_phrases (remove_repetitive_phrases "hello world".toList) =
        remove_repetitive_phrases "hello world".toList :=
  ⟨by decide, c4_amended "hello world".toList (by decide)⟩

/-- C5 counterexample: formatting a 120-character Chinese string with
`words_per_chunk = 50` and `chars_per_line = 10` yields one chunk, not 3:
the chunk span is `words_per_chunk * 6 = 300` characters, not `chunkSize`
characters. -/
theorem c5_counterexample :
    (format_text_chinese_chunks (List.replicate 120 '中') 50 10).length = 1 ∧
      (format_text_chinese_chunks (List.replicate 120 '中') 50 10).length ≠ 3 := by
  decide

/-- C5 (amended): the character-segmented formatter partitions the
normalized text into consecutive spans of `6·chunkSize` characters (not
`chunkSize`), and cuts each span into stripped lines of at most `lineSize`
characters; every emitted chunk holds at most `6·chunkSize` characters and
every line at most `lineSize`.  A 120-character Chinese string with
chunkSize 50 and lineSize 10 therefore yields a single chunk. -/
theorem c5_amended (text : Str) (wpc cpl : Nat) (hwpc : 0 < wpc) (hcpl : 0 < cpl) :
    ∀ lines ∈ format_text_chinese_chunks text wpc cpl,
      (∀ line ∈ lines, line.length ≤ cpl) ∧ (lines.map List.length).sum ≤ wpc * 6 := by
  intro lines hlines
  unfold format_text_chinese_chunks at hlines
  rw [List.mem_filter] at hlines
  obtain ⟨hmem, -⟩ := hlines
  rw [List.mem_map] at hmem
  obtain ⟨span, hspan, rfl⟩ := hmem
  constructor
  · intro line hline
    rw [List.mem_filterMap] at hline
    obtain ⟨lt, hlt, hflt⟩ := hline
    by_cases hem : (pyStrip lt).isEmpty
    · simp [hem] at hflt
    · simp only [hem, Bool.false_eq_true, if_false, Option.some.injEq] at hflt
      rw [← hflt]
      exact le_trans (length_pyStrip_le lt) (sliceEvery_mem_length span cpl lt hlt)
  · refine le_trans (filterMapStrip_sum_le _) ?_
    have h1 : ((sliceEvery span cpl).map List.length).sum = span.length := by
      rw [← List.length_flatten, sliceEvery_join span cpl hcpl]
    rw [h1]
    exact sliceEvery_mem_length _ _ span hspan

/-- C5 witness: the single chunk of the 120-character example has lines of
at most 10 characters and at most 300 characters in total. -/
theorem c5_witness :
    (List.replicate 10 '中').length ≤ 10 ∧
      ((List.replicate 12 (List.replicate 10 '中')).map List.length).sum ≤ 50 * 6 :=
  ⟨(c5_amended (List.replicate 120 '中') 50 10 (by decide) (by decide)
      (List.replicate 12 (List.replicate 10 '中')) (by decide)).1
      (List.replicate 10 '中') (by decide),
   (c5_amended (List.replicate 120 '中') 50 10 (by decide) (by decide)
      (List.replicate 12 (List.replicate 10 '中')) (by decide)).2⟩

/-- C6: for word-segmented formatting with `words_per_chunk = 100` and
`words_per_line = 15`, every chunk built by `format_text_english` holds at
most 100 words and every line at most 15 words. -/
theorem c6_chunk_line_bounds (text : Str) :
    ∀ chunk ∈ format_text_english_chunks text 100 15,
      (chunk.map List.length).sum ≤ 100 ∧ ∀ line ∈ chunk, line.length ≤ 15 := by
  intro chunk hchunk
  unfold format_text_english_chunks at hchunk
  rw [List.mem_map] at hchunk
  obtain ⟨cw, hcw, rfl⟩ := hchunk
  constructor
  · have h1 : ((sliceEvery cw 15).map List.length).sum = cw.length := by
      rw [← List.length_flatten, sliceEvery_join cw 15 (by omega)]
    rw [h1]
    exact sliceEvery_mem_length _ _ cw hcw
  · exact fun line hline => sliceEvery_mem_length _ _ line hline

/-- C6 witness: the single chunk of `"a b c"` has 3 ≤ 100 words and its
single line has 3 ≤ 15 words. -/
theorem c6_witness :
    (([[['a'], ['b'], ['c']]] : List (List (List Char))).map List.length).sum ≤ 100 ∧
      ([['a'], ['b'], ['c']] : List (List Char)).length ≤ 15 :=
  ⟨(c6_chunk_line_bounds "a b c".toList [[['a'], ['b'], ['c']]] (by decide)).1,
   (c6_chunk_line_bounds "a b c".toList [[['a'], ['b'], ['c']]] (by decide)).2
     [['a'], ['b'], ['c']] (by decide)⟩

/-- C7 counterexample: in character-segmented mode the fixed character
offsets can cut a word apart, so the formatted output does not re-split to
the input word sequence: a 52-character Chinese text whose space falls
inside the first 50-character line window gains an extra word. -/
theorem c7_counterexample :
    pySplit (format_text ((List.replicate 48 '中') ++ ' ' :: List.replicate 3 '中')) ≠
      pySplit ((List.replicate 48 '中') ++ ' ' :: List.replicate 3 '中') := by decide

/-- C7 (amended): word-segmented formatting is a pure re-flow — splitting
the output of `format_text_english` on whitespace reproduces exactly the
input word sequence; character-segmented formatting is not, since its
fixed-offset breaks can split words. -/
theorem c7_amended (text : Str) (wpc wpl : Nat) (hwpc : 0 < wpc) (hwpl : 0 < wpl) :
    pySplit (format_text_english text wpc wpl) = pySplit text :=
  pySplit_format_text_english text wpc wpl hwpc hwpl

/-- C7 witness: the round trip at the default sizes on `"a b c d e"`. -/
theorem c7_witness :
    0 < 100 ∧ 0 < 15 ∧
      pySplit (format_text_english "a b c d e".toList 100 15) =
        pySplit "a b c d e".toList :=
  ⟨by decide, by decide, c7_amended "a b c d e".toList 100 15 (by decide) (by decide)⟩

/-- C8: `detect_language` returns character-segmented (`chinese`) exactly
when the CJK character count strictly exceeds 30% of the non-space
character count (the float comparison modelled exactly as
`10·chinese > 3·total`, with the `total > 0` guard absorbed), and
`format_text` selects its mode from this result. -/
theorem c8_language_density (text : Str) :
    (detect_language text = Lang.chinese ↔
      3 * nonSpaceCount text < 10 * chineseCharCount text) ∧
      ∀ wpc wpl : Nat, format_text text wpc wpl =
        if detect_language text = Lang.chinese then format_text_chinese text 500 50
        else format_text_english text wpc wpl :=
  ⟨detect_language_iff text, fun wpc wpl => format_text_dispatch text wpc wpl⟩

/-- C8 witness: a fully Chinese text is detected as character-segmented
and formatted by the Chinese branch. -/
theorem c8_witness :
    detect_language "中中中".toList = Lang.chinese ∧
      format_text "中中中".toList 100 15 = format_text_chinese "中中中".toList 500 50 := by
  refine ⟨(c8_language_density "中中中".toList).1.mpr (by decide), ?_⟩
  rw [(c8_language_density "中中中".toList).2 100 15,
    if_pos ((c8_language_density "中中中".toList).1.mpr (by decide))]

/-- C9: the empty string passes through extraction (`clean_plain_text`)
and formatting (`format_text`) as the empty string, and any input whose
cleanup is empty formats to the empty string; all functions are total, so
no error is possible. -/
theorem c9_empty_pipeline :
    clean_plain_text [] = [] ∧ format_text [] = [] ∧
      ∀ s : Str, clean_plain_text s = [] → format_text (clean_plain_text s) = [] :=
  ⟨by decide, by decide, fun s h => by rw [h]; decide⟩

/-- C9 witness: `"(music)"` cleans to the empty string and formats to the
empty string. -/
theorem c9_witness :
    clean_plain_text [] = [] ∧ format_text [] = [] ∧
      format_text (clean_plain_text "(music)".toList) = [] :=
  ⟨c9_empty_pipeline.1, c9_empty_pipeline.2.1, c9_empty_pipeline.2.2 "(music)".toList (by decide)⟩

/-- C10: the output of `remove_repetitive_phrases` never contains `'!'` or
`'?'` — the sentence-dedup pass splits on all of `.`, `!`, `?` and rejoins
only with `'. '` plus a trailing `'.'` — and every nonempty output ends
with a period. -/
theorem c10_no_bang_question (s : Str) :
    '!' ∉ remove_repetitive_phrases s ∧ '?' ∉ remove_repetitive_phrases s ∧
      (remove_repetitive_phrases s = [] ∨
        (remove_repetitive_phrases s).getLast? = some '.') := by
  refine ⟨fun hc => ?_, fun hc => ?_, dedupSentencesPass_getLast _⟩
  · have := dedupSentencesPass_term_chars
      (joinSep [' '] (collapseWords 3 (pySplit s))) '!' hc (by decide)
    exact absurd this (by decide)
  · have := dedupSentencesPass_term_chars
      (joinSep [' '] (collapseWords 3 (pySplit s))) '?' hc (by decide)
    exact absurd this (by decide)

/-- C10 witness: a concrete input with `'!'` and `'?'` terminators. -/
theorem c10_witness :
    '!' ∉ remove_repetitive_phrases "hey! there?".toList ∧
      '?' ∉ remove_repetitive_phrases "hey! there?".toList ∧
      (remove_repetitive_phrases "hey! there?".toList = [] ∨
        (remove_repetitive_phrases "hey! there?".toList).getLast? = some '.') :=
  c10_no_bang_question "hey! there?".toList

end TranscriptProc
